import Mathlib

/-!
Verification of `nltk/classify/megam.py`: a shallow embedding of the module's
four functions (`config_megam`, `write_megam_file`, `parse_megam_weights`,
`_write_megam_features`, `call_megam`) together with models of the Python
string builtins they rely on (`str.strip`, `str.split`, `int`, `float`,
`'%d' % n`) and of numpy 1-d array item assignment.

Conventions of the embedding:
* Python strings (both the stream contents written by the serializer and the
  stdout bytes consumed by the parser) are `List Char`.
* Numeric weight values are modelled as `Rat`; decimal literals such as
  `0.5` are exact, IEEE-754 rounding of float64 is not modelled.
* `int()` / `float()` are modelled for ASCII decimal forms (optional sign,
  digits, decimal point, exponent); Unicode digit forms, underscore grouping
  and inf/nan literals are not modelled.
* Exceptions are modelled with `Except` / explicit error components; a
  function that streams output before raising returns the partial output
  beside the error.
-/

namespace Megam

/-- Decidable equality of `Except` results (used to evaluate concrete
runs of the embedded functions). -/
instance {ε α : Type} [DecidableEq ε] [DecidableEq α] : DecidableEq (Except ε α) := fun a b =>
  match a, b with
  | .ok x, .ok y =>
    match decEq x y with
    | isTrue h => isTrue (h ▸ rfl)
    | isFalse h => isFalse (fun he => h (by cases he; rfl))
  | .error x, .error y =>
    match decEq x y with
    | isTrue h => isTrue (h ▸ rfl)
    | isFalse h => isFalse (fun he => h (by cases he; rfl))
  | .ok _, .error _ => isFalse (fun he => by cases he)
  | .error _, .ok _ => isFalse (fun he => by cases he)

/-- Python whitespace characters (the set used by `str.strip()` and
`str.split()` with no separator). -/
def isPyWs (c : Char) : Bool :=
  c = ' ' || c = '\t' || c = '\n' || c = '\r' || c = '\x0b' || c = '\x0c'

/-- Model of `str.strip()`: drop leading and trailing whitespace. -/
def pyStrip (l : List Char) : List Char :=
  ((l.dropWhile isPyWs).reverse.dropWhile isPyWs).reverse

/-- Model of `str.split('\n')`: split at every newline, keeping empty
pieces (so the result is always nonempty). -/
def splitNl : List Char → List (List Char)
  | [] => [[]]
  | c :: r =>
    if c = '\n' then [] :: splitNl r
    else
      match splitNl r with
      | [] => [[c]]
      | h :: t => (c :: h) :: t

/-- Worker for `pySplitWs`; `acc` holds the reversed current token. -/
def pySplitWsAux : List Char → List Char → List (List Char)
  | [], acc => if acc.isEmpty then [] else [acc.reverse]
  | c :: r, acc =>
    if isPyWs c then
      if acc.isEmpty then pySplitWsAux r [] else acc.reverse :: pySplitWsAux r []
    else pySplitWsAux r (c :: acc)

/-- Model of `str.split()` with no argument: split on runs of whitespace,
discarding leading and trailing whitespace. -/
def pySplitWs (l : List Char) : List (List Char) :=
  pySplitWsAux l []

/-- Value of an ASCII decimal digit character. -/
def digitVal? (c : Char) : Option Nat :=
  if '0' ≤ c ∧ c ≤ '9' then some (c.toNat - '0'.toNat) else none

/-- Whether a character is an ASCII decimal digit. -/
def isDigitChar (c : Char) : Bool :=
  (digitVal? c).isSome

/-- Accumulating value of a digit string; fails at the first non-digit. -/
def digitsValAux : Nat → List Char → Option Nat
  | acc, [] => some acc
  | acc, c :: r =>
    match digitVal? c with
    | some d => digitsValAux (10 * acc + d) r
    | none => none

/-- Value of a nonempty all-digit string, `none` otherwise. -/
def digitsVal? (l : List Char) : Option Nat :=
  if l.isEmpty then none else digitsValAux 0 l

/-- Model of Python `int(str)`: strip whitespace, optional sign, then a
nonempty run of decimal digits. -/
def pyInt? (l : List Char) : Option Int :=
  match pyStrip l with
  | [] => none
  | c :: r =>
    if c = '+' then (digitsVal? r).map Int.ofNat
    else if c = '-' then (digitsVal? r).map (fun n => -(n : Int))
    else (digitsVal? (c :: r)).map Int.ofNat

/-- Total value of a digit list (non-digits count 0); only applied to
lists already known to be all digits. -/
def digitsListVal (l : List Char) : Nat :=
  l.foldl (fun a c => 10 * a + (digitVal? c).getD 0) 0

/-- Parse an optional exponent suffix: `[]` means exponent `0`, otherwise
`e`/`E`, an optional sign and a nonempty digit run. -/
def pyExpVal? : List Char → Option Int
  | [] => some 0
  | c :: r =>
    if c = 'e' || c = 'E' then
      match r with
      | [] => none
      | c2 :: r2 =>
        if c2 = '+' then (digitsVal? r2).map Int.ofNat
        else if c2 = '-' then (digitsVal? r2).map (fun n => -(n : Int))
        else (digitsVal? (c2 :: r2)).map Int.ofNat
    else none

/-- Build the rational `(num / den) * 10 ^ k` with a single `mkRat`, so
that the value evaluates by kernel reduction. -/
def ratOfParts (num den : Nat) : Int → Rat
  | .ofNat k => mkRat (Int.ofNat (num * 10 ^ k)) den
  | .negSucc m => mkRat (Int.ofNat num) (den * 10 ^ (m + 1))

/-- Unsigned part of Python `float(str)`: `digits[.digits][exp]` or
`.digits[exp]`, at least one mantissa digit required. -/
def pyFloatMag? (l : List Char) : Option Rat :=
  let ip := l.takeWhile isDigitChar
  let r1 := l.dropWhile isDigitChar
  match r1 with
  | '.' :: r2 =>
    let fp := r2.takeWhile isDigitChar
    let r3 := r2.dropWhile isDigitChar
    if ip.isEmpty && fp.isEmpty then none
    else
      (pyExpVal? r3).map
        (ratOfParts (digitsListVal ip * 10 ^ fp.length + digitsListVal fp) (10 ^ fp.length))
  | _ =>
    if ip.isEmpty then none else (pyExpVal? r1).map (ratOfParts (digitsListVal ip) 1)

/-- Model of Python `float(str)` for finite decimal forms: strip
whitespace, optional sign, magnitude. -/
def pyFloat? (l : List Char) : Option Rat :=
  match pyStrip l with
  | [] => none
  | c :: r =>
    if c = '+' then pyFloatMag? r
    else if c = '-' then (pyFloatMag? r).map Rat.neg
    else pyFloatMag? (c :: r)

/-- Reversed (least-significant-first) decimal digit characters of `n`,
with explicit fuel; `natDigitsRevAux n n` is exact for every `n`. -/
def natDigitsRevAux : Nat → Nat → List Char
  | 0, _ => []
  | _, 0 => []
  | fuel + 1, n => Nat.digitChar (n % 10) :: natDigitsRevAux fuel (n / 10)

/-- Model of Python `'%d' % n` / `str(n)` for a natural number. -/
def pyStrOfNat (n : Nat) : List Char :=
  if n = 0 then ['0'] else (natDigitsRevAux n n).reverse

/-- Model of Python `str(i)` for an integer. -/
def pyStrOfInt : Int → List Char
  | .ofNat n => pyStrOfNat n
  | .negSucc m => '-' :: pyStrOfNat (m + 1)

/-- Model of numpy 1-d item assignment `w[i] = v`: indices in
`[0, len)` write directly, indices in `[-len, 0)` wrap to `len + i`,
anything else is an `IndexError` (`none`). -/
def npSet (w : List Rat) (i : Int) (v : Rat) : Option (List Rat) :=
  if 0 ≤ i ∧ i < (w.length : Int) then some (w.set i.toNat v)
  else if -(w.length : Int) ≤ i ∧ i < 0 then some (w.set (i + (w.length : Int)).toNat v)
  else none

/-- Exceptions that `parse_megam_weights` can raise: `assertError` for a
non-explicit call, `unpackError` for a line whose token count is not two,
`valueError` for a non-numeric field, `indexError` for an out-of-range
feature id. -/
inductive PError where
  | assertError
  | unpackError
  | valueError
  | indexError
deriving DecidableEq

/-- One iteration of the parser loop: skip a blank line, otherwise split
into exactly two tokens, evaluate `float(weight)` then `int(fid)` (Python
evaluates the right-hand side first) and assign into the vector. -/
def parseLine (w : List Rat) (line : List Char) : Except PError (List Rat) :=
  if (pyStrip line).isEmpty then .ok w
  else
    match pySplitWs line with
    | [fid, weight] =>
      match pyFloat? weight with
      | none => .error .valueError
      | some v =>
        match pyInt? fid with
        | none => .error .valueError
        | some i =>
          match npSet w i v with
          | some w2 => .ok w2
          | none => .error .indexError
    | _ => .error .unpackError

/-- The parser loop over the list of lines. -/
def parseLines (w : List Rat) : List (List Char) → Except PError (List Rat)
  | [] => .ok w
  | line :: rest =>
    match parseLine w line with
    | .ok w2 => parseLines w2 rest
    | .error e => .error e

/-- `parse_megam_weights` from `nltk/classify/megam.py`: strip the stdout
bytes, split into lines, fill a zero-initialised vector of length
`features_count`.  numpy is assumed installed. -/
def parse_megam_weights (s : List Char) (features_count : Nat) (explicit : Bool) :
    Except PError (List Rat) :=
  if explicit then parseLines (List.replicate features_count 0) (splitNl (pyStrip s))
  else .error .assertError

/-- Spec-side: the `(id, weight)` assignment named by one line, when the
line has exactly two tokens and both parse. -/
def lineAssign? (line : List Char) : Option (Int × Rat) :=
  match pySplitWs line with
  | [a, b] =>
    match pyInt? a, pyFloat? b with
    | some i, some v => some (i, v)
    | _, _ => none
  | _ => none

/-- Spec-side description of the parser input (used to state C1): the
well-formed `(id, weight)` assignments named by the lines of `s`, in
line order. -/
def namedAssigns (s : List Char) : List (Int × Rat) :=
  (splitNl (pyStrip s)).filterMap lineAssign?

/-- The last weight assigned to index `j` by the well-formed lines of
`s`, if any (spec-side, used to state C1). -/
def lastAssign (s : List Char) (j : Nat) : Option Rat :=
  (((namedAssigns s).reverse.find? (fun p => p.1 = (j : Int))).map (fun p => p.2))

/-- A line is good for vector length `count` when it is blank or has
exactly two tokens that parse, with the id a valid (possibly negative,
numpy-wrapping) index.  Non-good lines make the parser fail (C6). -/
def goodLine (count : Nat) (line : List Char) : Bool :=
  (pyStrip line).isEmpty ||
    match pySplitWs line with
    | [a, b] =>
      match pyInt? a, pyFloat? b with
      | some i, some _ => decide (-(count : Int) ≤ i ∧ i < (count : Int))
      | _, _ => false
    | _ => false

/-- A line is strictly well-formed for C1: blank, or two tokens parsing
with a nonnegative in-range id. -/
def strictLine (count : Nat) (line : List Char) : Bool :=
  (pyStrip line).isEmpty ||
    match pySplitWs line with
    | [a, b] =>
      match pyInt? a, pyFloat? b with
      | some i, some _ => decide (0 ≤ i ∧ i < (count : Int))
      | _, _ => false
    | _ => false

/-- Exceptions raised while writing a megam training file:
`emptyVector` and `nonBinary` are the two `ValueError`s of
`_write_megam_features`, `labelNotFound` is the `KeyError` of the
`labelnum[label]` dictionary lookup. -/
inductive WriteError where
  | emptyVector
  | nonBinary
  | labelNotFound
deriving DecidableEq

/-- The feature-encoding capability object used by `write_megam_file`:
a label order, an encoder from (feature-set, label) to a sparse
(feature-id, value) vector, and an optional cost function (the
`hasattr(encoding, 'cost')` capability). -/
structure MegamEncoding (α β : Type) where
  labels : List β
  encode : α → β → List (Nat × Int)
  cost : Option (α → β → β → Int)

/-- Index bookkeeping of the Python dict comprehension
`dict([(label, i) for (i, label) in enumerate(labels)])`: for a
duplicated label the later index wins. -/
def lastIndexOfAux {β : Type} [DecidableEq β] (l : β) : List β → Nat → Option Nat
  | [], _ => none
  | x :: r, i =>
    match lastIndexOfAux l r (i + 1) with
    | some j => some j
    | none => if x = l then some i else none

/-- `labelnum[l]`: the index assigned to label `l` by the enumeration
dictionary, `none` when the lookup raises `KeyError`. -/
def labelnumLookup {β : Type} [DecidableEq β] (labels : List β) (l : β) : Option Nat :=
  lastIndexOfAux l labels 0

/-- Spec-side: the position of label `l` within a label order (first
occurrence; for a duplicate-free label set this is the unique index). -/
def specIndexOf {β : Type} [DecidableEq β] (l : β) : List β → Nat
  | [] => 0
  | x :: r => if x = l then 0 else specIndexOf l r + 1

/-- The loop of `_write_megam_features` over the encoded vector: in
bernoulli mode a value `1` streams `' %s' % fid`, a value `0` streams
nothing and anything else raises; otherwise `' %s %s' % (fid, fval)` is
streamed unconditionally.  The first component is the text streamed
before returning or raising. -/
def featTokens (bernoulli : Bool) : List (Nat × Int) → List Char × Option WriteError
  | [] => ([], none)
  | (fid, fval) :: rest =>
    if bernoulli then
      if fval = 1 then
        (' ' :: pyStrOfNat fid ++ (featTokens bernoulli rest).1, (featTokens bernoulli rest).2)
      else if fval = 0 then featTokens bernoulli rest
      else ([], some .nonBinary)
    else
      (' ' :: (pyStrOfNat fid ++ ' ' :: pyStrOfInt fval) ++ (featTokens bernoulli rest).1,
        (featTokens bernoulli rest).2)

/-- `_write_megam_features` from `nltk/classify/megam.py`: an empty
vector raises before anything is streamed, otherwise the vector is
streamed by `featTokens`. -/
def write_megam_features (vector : List (Nat × Int)) (bernoulli : Bool) :
    List Char × Option WriteError :=
  if vector.isEmpty then ([], some .emptyVector) else featTokens bernoulli vector

/-- The explicit-format inner loop of `write_megam_file`: for each label
stream `' #'` and then the feature block for that label, stopping at the
first exception (text already streamed is kept). -/
def explicitBlocks {α β : Type} (enc : MegamEncoding α β) (bernoulli : Bool) (fs : α) :
    List β → List Char × Option WriteError
  | [] => ([], none)
  | l :: rest =>
    match (write_megam_features (enc.encode fs l) bernoulli).2 with
    | some e => (' ' :: '#' :: (write_megam_features (enc.encode fs l) bernoulli).1, some e)
    | none =>
      (' ' :: '#' :: (write_megam_features (enc.encode fs l) bernoulli).1 ++
        (explicitBlocks enc bernoulli fs rest).1,
        (explicitBlocks enc bernoulli fs rest).2)

/-- The feature part of one instance line: all labels' blocks in explicit
mode, the true label's single bare block otherwise. -/
def writeBlocks {α β : Type} (enc : MegamEncoding α β) (bernoulli explicit : Bool)
    (fs : α) (label : β) : List Char × Option WriteError :=
  if explicit then explicitBlocks enc bernoulli fs enc.labels
  else write_megam_features (enc.encode fs label) bernoulli

/-- The first thing written on an instance line: the colon-joined costs
of every label when the encoding has a cost capability, otherwise the
decimal `labelnum` index of the instance's true label (whose dictionary
lookup can raise `KeyError`). -/
def firstPart {α β : Type} [DecidableEq β] (enc : MegamEncoding α β) (fs : α) (label : β) :
    List Char × Option WriteError :=
  match enc.cost with
  | some c =>
    (List.intercalate [':'] (enc.labels.map (fun l => pyStrOfInt (c fs label l))), none)
  | none =>
    match labelnumLookup enc.labels label with
    | some i => (pyStrOfNat i, none)
    | none => ([], some .labelNotFound)

/-- One instance line of `write_megam_file`: label part, feature blocks,
then the terminating newline; an exception interrupts the line. -/
def writeLine {α β : Type} [DecidableEq β] (enc : MegamEncoding α β)
    (bernoulli explicit : Bool) (p : α × β) : List Char × Option WriteError :=
  match (firstPart enc p.1 p.2).2 with
  | some e => ((firstPart enc p.1 p.2).1, some e)
  | none =>
    match (writeBlocks enc bernoulli explicit p.1 p.2).2 with
    | some e =>
      ((firstPart enc p.1 p.2).1 ++ (writeBlocks enc bernoulli explicit p.1 p.2).1, some e)
    | none =>
      ((firstPart enc p.1 p.2).1 ++ (writeBlocks enc bernoulli explicit p.1 p.2).1 ++ ['\n'],
        none)

/-- The loop of `write_megam_file` over the training pairs. -/
def writeFileGo {α β : Type} [DecidableEq β] (enc : MegamEncoding α β)
    (bernoulli explicit : Bool) : List (α × β) → List Char × Option WriteError
  | [] => ([], none)
  | p :: rest =>
    match (writeLine enc bernoulli explicit p).2 with
    | some e => ((writeLine enc bernoulli explicit p).1, some e)
    | none =>
      ((writeLine enc bernoulli explicit p).1 ++ (writeFileGo enc bernoulli explicit rest).1,
        (writeFileGo enc bernoulli explicit rest).2)

/-- `write_megam_file` from `nltk/classify/megam.py`: one line per
training pair; the first component is the text written to the stream (in
full on success, the partial prefix when an exception interrupts the
run), the second the exception if any.  The `bin_stream` byte wrapper
only UTF-8-encodes the same text and is not modelled separately. -/
def write_megam_file {α β : Type} [DecidableEq β] (train_toks : List (α × β))
    (enc : MegamEncoding α β) (bernoulli explicit : Bool) : List Char × Option WriteError :=
  writeFileGo enc bernoulli explicit train_toks

/-- What a spawned child process does: its exit code, the bytes it writes
on standard output (captured through the pipe) and the bytes it writes on
its own standard error (which is not redirected). -/
structure ProcResult where
  returncode : Int
  stdoutData : List Char
  stderrData : List Char
deriving DecidableEq

/-- Modelled from the spec: the two external collaborators of the module
that are not part of the source under verification.  `findBinary` models
`nltk.internals.find_binary` (binary discovery over an optional explicit
path, environment variables and a PATH search; it returns the resolved
path, and raises a `LookupError` — here `none` — when no candidate is
found or the explicit path does not exist).  `run` models spawning the
command vector as a child process with only its standard output piped. -/
structure World where
  findBinary : Option (List Char) → Option (List Char)
  run : List (List Char) → ProcResult

/-- Exceptions of the locator/invoker: `typeError` for a single-string
argument list, `lookupError` from binary discovery, `osError` for a
non-zero child exit. -/
inductive CallError where
  | typeError
  | lookupError
  | osError
deriving DecidableEq

/-- `config_megam` from `nltk/classify/megam.py`: assign the result of
`find_binary` to the module-global `_megam_bin`.  The first component is
the value of `_megam_bin` after the call: when `find_binary` raises, the
assignment never executes and the global keeps its previous value. -/
def config_megam (st : Option (List Char)) (w : World) (bin : Option (List Char)) :
    Option (List Char) × Option CallError :=
  match w.findBinary bin with
  | some p => (some p, none)
  | none => (st, some .lookupError)

/-- The argument of `call_megam`: either a pre-joined command string
(`compat.string_types`) or a list of discrete tokens. -/
inductive PyArgs where
  | str (s : List Char)
  | list (l : List (List Char))

/-- Everything observable about one run of `call_megam`: the value of the
module-global `_megam_bin` afterwards, the command vector of the spawned
child if one was spawned, what the function itself printed on
`sys.stdout` and on `sys.stderr`, and its result. -/
structure CallOutcome where
  newState : Option (List Char)
  spawned : Option (List (List Char))
  stdoutPrinted : List Char
  stderrPrinted : List Char
  result : Except CallError (List Char)
deriving DecidableEq

/-- What `print()` followed by `print(stderr)` emits on `sys.stdout` when
the child failed: `communicate()` returns `None` for stderr because only
stdout was piped, and `print(None)` writes the literal text `None`. -/
def failurePrintout : List Char :=
  '\n' :: 'N' :: 'o' :: 'n' :: 'e' :: '\n' :: []

/-- The part of `call_megam` after the binary path is resolved: spawn
`[bin] + args` with stdout piped, block until exit, then either raise
`OSError` (printing a blank line and `None` on standard output) or return
the captured stdout bytes. -/
def callRun (st : Option (List Char)) (w : World) (bin : List Char)
    (args : List (List Char)) : CallOutcome :=
  let pr := w.run (bin :: args)
  if pr.returncode = 0 then
    ⟨st, some (bin :: args), [], [], .ok pr.stdoutData⟩
  else
    ⟨st, some (bin :: args), failurePrintout, [], .error .osError⟩

/-- `call_megam` from `nltk/classify/megam.py`: reject a plain string
argument, lazily configure the binary when the global is unset, then
spawn and collect. -/
def call_megam (st : Option (List Char)) (w : World) (args : PyArgs) : CallOutcome :=
  match args with
  | .str _ => ⟨st, none, [], [], .error .typeError⟩
  | .list l =>
    match st with
    | some bin => callRun (some bin) w bin l
    | none =>
      match w.findBinary none with
      | none => ⟨none, none, [], [], .error .lookupError⟩
      | some bin => callRun (some bin) w bin l

/-- A concrete cost-free encoding with two labels and binary feature
values everywhere (for concrete runs of the serializer). -/
def encAllBin : MegamEncoding Nat Nat :=
  ⟨[10, 20], fun _ l => [(0, 1), (1, if l = 10 then 0 else 1)], none⟩

/-- A concrete encoding with a cost capability (for concrete runs of the
serializer in cost mode). -/
def encCost : MegamEncoding Nat Nat :=
  ⟨[10, 20], fun _ _ => [(0, 1)], some (fun _ lbl l => if lbl = l then 0 else 2)⟩

/-- A world whose binary discovery always fails (for concrete runs). -/
def wNoFind : World :=
  ⟨fun _ => none, fun _ => ⟨0, [], []⟩⟩

/-- A world whose binary discovery always resolves to `m` (for concrete
runs). -/
def wFind : World :=
  ⟨fun _ => some ['m'], fun _ => ⟨0, [], []⟩⟩

/-- A world whose child process exits with code 1 after writing `boom` on
its own standard error (for concrete runs). -/
def wRunFail : World :=
  ⟨fun _ => none, fun _ => ⟨1, [], 'b' :: 'o' :: 'o' :: 'm' :: []⟩⟩

/-- A world whose child process exits cleanly writing `w` on standard
output (for concrete runs). -/
def wRunOk : World :=
  ⟨fun _ => none, fun _ => ⟨0, ['w'], []⟩⟩

end Megam

namespace Megam

/-- Claim C8: for every single-string argument, `call_megam` raises a
`TypeError` before anything else happens: the module global is unchanged,
binary discovery is never consulted, no child process is spawned and
nothing is printed. -/
theorem claim_C8 (st : Option (List Char)) (w : World) (s : List Char) :
    call_megam st w (.str s) = ⟨st, none, [], [], .error .typeError⟩ :=
  rfl

/-- Claim C10: when binary discovery raises a `LookupError`,
`config_megam` leaves the module-global resolved path unchanged: in
general, after an earlier successful configuration, and in the
unconfigured state. -/
theorem claim_C10 :
    (∀ (st : Option (List Char)) (w : World) (bin : Option (List Char)),
      w.findBinary bin = none → (config_megam st w bin).1 = st)
    ∧ (∀ (st : Option (List Char)) (w w2 : World) (bin bin2 : Option (List Char))
        (p : List Char), w.findBinary bin = some p → w2.findBinary bin2 = none →
      (config_megam (config_megam st w bin).1 w2 bin2).1 = some p)
    ∧ (∀ (w : World) (bin : Option (List Char)),
      w.findBinary bin = none → (config_megam none w bin).1 = none) := by
  refine ⟨fun st w bin h => ?_, fun st w w2 bin bin2 p h h2 => ?_, fun w bin h => ?_⟩
  · simp [config_megam, h]
  · simp [config_megam, h, h2]
  · simp [config_megam, h]

/-- Witness for C10 at concrete worlds. -/
theorem claim_C10_witness :
    (config_megam (some ['a']) wNoFind none).1 = some ['a']
    ∧ (config_megam (config_megam none wFind none).1 wNoFind none).1 = some ['m']
    ∧ (config_megam none wNoFind none).1 = none :=
  ⟨claim_C10.1 _ _ _ rfl, claim_C10.2.1 _ _ _ _ _ _ rfl rfl, claim_C10.2.2 _ _ rfl⟩

/-- Counterexample to C7 as stated: the child exits non-zero with `boom`
on its standard error, yet `call_megam` prints nothing at all on the
caller's error stream — it prints a blank line and the literal text
`None` on standard output instead (stderr is not piped, so
`communicate()` returns `None` for it). -/
theorem claim_C7_counterexample :
    (call_megam (some ['m']) wRunFail (.list [])).stderrPrinted = []
    ∧ (wRunFail.run [['m']]).stderrData = 'b' :: 'o' :: 'o' :: 'm' :: []
    ∧ ('b' :: 'o' :: 'o' :: 'm' :: []) ≠ ([] : List Char)
    ∧ (call_megam (some ['m']) wRunFail (.list [])).result = .error .osError
    ∧ (call_megam (some ['m']) wRunFail (.list [])).stdoutPrinted = failurePrintout := by
  decide

/-- Claim C7 (amended): with the binary configured, a non-zero child exit
makes `call_megam` print a blank line and the literal `None` on standard
output (the child's standard error is not captured — only stdout is
piped), print nothing on the error stream, and raise a generic `OSError`
with no result; a zero exit returns the raw captured stdout bytes
unmodified. -/
theorem claim_C7 (w : World) (p : List Char) (l : List (List Char)) :
    ((w.run (p :: l)).returncode ≠ 0 →
      call_megam (some p) w (.list l) =
        ⟨some p, some (p :: l), failurePrintout, [], .error .osError⟩)
    ∧ ((w.run (p :: l)).returncode = 0 →
      call_megam (some p) w (.list l) =
        ⟨some p, some (p :: l), [], [], .ok (w.run (p :: l)).stdoutData⟩) := by
  constructor
  · intro h
    simp [call_megam, callRun, h]
  · intro h
    simp [call_megam, callRun, h]

/-- Witness for C7 (amended) at concrete worlds for both exit statuses. -/
theorem claim_C7_witness :
    call_megam (some ['m']) wRunFail (.list []) =
      ⟨some ['m'], some [['m']], failurePrintout, [], .error .osError⟩
    ∧ call_megam (some ['m']) wRunOk (.list []) =
      ⟨some ['m'], some [['m']], [], [], .ok ['w']⟩ :=
  ⟨(claim_C7 wRunFail ['m'] []).1 (by decide), (claim_C7 wRunOk ['m'] []).2 rfl⟩

theorem featTokens_all_binary (v : List (Nat × Int)) (hb : ∀ q ∈ v, q.2 = 0 ∨ q.2 = 1) :
    featTokens true v =
      ((v.map fun q => if q.2 = 1 then ' ' :: pyStrOfNat q.1 else []).flatten, none) := by
  induction v with
  | nil => rfl
  | cons q r ih =>
    obtain ⟨fid, fval⟩ := q
    have hq := hb (fid, fval) (by simp)
    have hr : ∀ q ∈ r, q.2 = 0 ∨ q.2 = 1 := fun q hq2 => hb q (by simp [hq2])
    rcases hq with h0 | h1
    · simp at h0
      simp [featTokens, h0, ih hr]
    · simp at h1
      simp [featTokens, h1, ih hr]

theorem featTokens_nonBinary (v : List (Nat × Int)) (hb : ∃ q ∈ v, q.2 ≠ 0 ∧ q.2 ≠ 1) :
    (featTokens true v).2 = some .nonBinary := by
  induction v with
  | nil => simp at hb
  | cons q r ih =>
    obtain ⟨fid, fval⟩ := q
    by_cases h1 : fval = 1
    · rcases hb with ⟨q2, hq2, hbad⟩
      rcases List.mem_cons.mp hq2 with hh | hh
      · exfalso
        rw [hh] at hbad
        exact hbad.2 h1
      · simp [featTokens, h1]
        exact ih ⟨q2, hh, hbad⟩
    · by_cases h0 : fval = 0
      · rcases hb with ⟨q2, hq2, hbad⟩
        rcases List.mem_cons.mp hq2 with hh | hh
        · exfalso
          rw [hh] at hbad
          exact hbad.1 h0
        · simp [featTokens, h1, h0]
          exact ih ⟨q2, hh, hbad⟩
      · simp [featTokens, h1, h0]

theorem featTokens_false (v : List (Nat × Int)) :
    featTokens false v =
      ((v.map fun q => ' ' :: (pyStrOfNat q.1 ++ ' ' :: pyStrOfInt q.2)).flatten, none) := by
  induction v with
  | nil => rfl
  | cons q r ih =>
    obtain ⟨fid, fval⟩ := q
    simp [featTokens, ih]

theorem wmf_binary_not_nonBinary (v : List (Nat × Int))
    (hb : ∀ q ∈ v, q.2 = 0 ∨ q.2 = 1) :
    (write_megam_features v true).2 ≠ some WriteError.nonBinary := by
  unfold write_megam_features
  by_cases hv : v.isEmpty
  · simp [hv]
  · simp [hv, featTokens_all_binary v hb]

theorem explicitBlocks_not_nonBinary {α β : Type} (enc : MegamEncoding α β) (fs : α)
    (ls : List β)
    (h : ∀ l ∈ ls, (write_megam_features (enc.encode fs l) true).2 ≠ some WriteError.nonBinary) :
    (explicitBlocks enc true fs ls).2 ≠ some WriteError.nonBinary := by
  induction ls with
  | nil => simp [explicitBlocks]
  | cons l rest ih =>
    cases he : (write_megam_features (enc.encode fs l) true).2 with
    | some e =>
      have := h l (by simp)
      rw [he] at this
      simp [explicitBlocks, he]
      intro hcon
      exact this (by rw [hcon])
    | none =>
      simp [explicitBlocks, he]
      exact ih (fun l2 hl2 => h l2 (by simp [hl2]))

theorem firstPart_not_nonBinary {α β : Type} [DecidableEq β] (enc : MegamEncoding α β)
    (fs : α) (label : β) :
    (firstPart enc fs label).2 ≠ some WriteError.nonBinary := by
  unfold firstPart
  cases enc.cost with
  | some c => simp
  | none =>
    cases labelnumLookup enc.labels label with
    | some i => simp
    | none => simp

theorem writeFileGo_binary_not_nonBinary {α β : Type} [DecidableEq β]
    (enc : MegamEncoding α β) (e : Bool) (tt : List (α × β))
    (hb : ∀ (fs : α) (l : β), ∀ q ∈ enc.encode fs l, q.2 = 0 ∨ q.2 = 1) :
    (writeFileGo enc true e tt).2 ≠ some WriteError.nonBinary := by
  have hblocks : ∀ (fs : α) (label : β),
      (writeBlocks enc true e fs label).2 ≠ some WriteError.nonBinary := by
    intro fs label
    unfold writeBlocks
    by_cases he : e
    · simp [he]
      exact explicitBlocks_not_nonBinary enc fs enc.labels
        (fun l _ => wmf_binary_not_nonBinary _ (hb fs l))
    · simp [he]
      exact wmf_binary_not_nonBinary _ (hb fs label)
  have hline : ∀ p : α × β, (writeLine enc true e p).2 ≠ some WriteError.nonBinary := by
    intro p
    unfold writeLine
    cases h1 : (firstPart enc p.1 p.2).2 with
    | some err =>
      have := firstPart_not_nonBinary enc p.1 p.2
      rw [h1] at this
      simp
      intro hcon
      exact this (by rw [hcon])
    | none =>
      cases h2 : (writeBlocks enc true e p.1 p.2).2 with
      | some err =>
        have := hblocks p.1 p.2
        rw [h2] at this
        simp
        intro hcon
        exact this (by rw [hcon])
      | none => simp
  induction tt with
  | nil => simp [writeFileGo]
  | cons p rest ih =>
    cases hl : (writeLine enc true e p).2 with
    | some err =>
      have := hline p
      rw [hl] at this
      simp [writeFileGo, hl]
      intro hcon
      exact this (by rw [hcon])
    | none =>
      simp [writeFileGo, hl]
      exact ih

/-- Claim C3: in bernoulli mode a value of exactly 1 streams a bare
feature-id token, a value of 0 streams nothing, and a binary-vector never
raises; any value outside 0 and 1 raises the binary-value error; in
non-bernoulli mode the `id value` pair is streamed regardless of the
value and a binary-value error is impossible; consequently a whole
`write_megam_file` run over an everywhere-binary encoding never raises
the binary-value error. -/
theorem claim_C3 {α β : Type} [DecidableEq β] (v : List (Nat × Int)) (tt : List (α × β))
    (enc : MegamEncoding α β) (e : Bool) :
    ((∀ q ∈ v, q.2 = 0 ∨ q.2 = 1) → v ≠ [] →
      write_megam_features v true =
        ((v.map fun q => if q.2 = 1 then ' ' :: pyStrOfNat q.1 else []).flatten, none))
    ∧ ((∃ q ∈ v, q.2 ≠ 0 ∧ q.2 ≠ 1) →
      (write_megam_features v true).2 = some WriteError.nonBinary)
    ∧ (v ≠ [] →
      write_megam_features v false =
        ((v.map fun q => ' ' :: (pyStrOfNat q.1 ++ ' ' :: pyStrOfInt q.2)).flatten, none))
    ∧ ((write_megam_features v false).2 ≠ some WriteError.nonBinary)
    ∧ ((∀ (fs : α) (l : β), ∀ q ∈ enc.encode fs l, q.2 = 0 ∨ q.2 = 1) →
      (write_megam_file tt enc true e).2 ≠ some WriteError.nonBinary) := by
  refine ⟨fun hb hne => ?_, fun hb => ?_, fun hne => ?_, ?_, fun hb => ?_⟩
  · rw [write_megam_features, if_neg (by simpa using hne)]
    exact featTokens_all_binary v hb
  · have hne : ¬ v.isEmpty := by
      rcases hb with ⟨q, hq, _⟩
      cases v with
      | nil => simp at hq
      | cons a r => simp
    rw [write_megam_features, if_neg hne]
    exact featTokens_nonBinary v hb
  · rw [write_megam_features, if_neg (by simpa using hne)]
    exact featTokens_false v
  · unfold write_megam_features
    by_cases hv : v.isEmpty
    · simp [hv]
    · simp [hv, featTokens_false v]
  · exact writeFileGo_binary_not_nonBinary enc e tt hb

/-- Witness for C3 at concrete vectors and a concrete all-binary
encoding. -/
theorem claim_C3_witness :
    write_megam_features [(0, 1), (2, 0)] true =
      ((([((0 : Nat), (1 : Int)), (2, 0)].map
        fun q => if q.2 = 1 then ' ' :: pyStrOfNat q.1 else []).flatten), none)
    ∧ (write_megam_features [(7, 2)] true).2 = some WriteError.nonBinary
    ∧ write_megam_features [(3, 5)] false =
      ((([((3 : Nat), (5 : Int))].map
        fun q => ' ' :: (pyStrOfNat q.1 ++ ' ' :: pyStrOfInt q.2)).flatten), none)
    ∧ (write_megam_features [(3, 5)] false).2 ≠ some WriteError.nonBinary
    ∧ (write_megam_file [((0 : Nat), (10 : Nat))] encAllBin true true).2 ≠
      some WriteError.nonBinary := by
  have hbin : ∀ (fs : Nat) (l : Nat), ∀ q ∈ encAllBin.encode fs l, q.2 = 0 ∨ q.2 = 1 := by
    intro fs l q hq
    simp [encAllBin] at hq
    rcases hq with h | h
    · rw [h]
      right
      rfl
    · rw [h]
      by_cases hl : l = 10
      · simp [hl]
      · simp [hl]
  refine ⟨(claim_C3 _ ([] : List (Nat × Nat)) encAllBin true).1 (by decide) (by decide),
    (claim_C3 _ ([] : List (Nat × Nat)) encAllBin true).2.1 ⟨(7, 2), by simp, by decide, by decide⟩,
    (claim_C3 _ ([] : List (Nat × Nat)) encAllBin true).2.2.1 (by decide),
    (claim_C3 [(3, 5)] ([] : List (Nat × Nat)) encAllBin true).2.2.2.1,
    (claim_C3 [(3, 5)] [((0 : Nat), (10 : Nat))] encAllBin true).2.2.2.2 hbin⟩

theorem wmf_ok_ne_nil (v : List (Nat × Int)) (b : Bool)
    (h : (write_megam_features v b).2 = none) : v ≠ [] := by
  intro hv
  rw [hv] at h
  simp [write_megam_features] at h

theorem explicitBlocks_ok {α β : Type} (enc : MegamEncoding α β) (b : Bool) (fs : α)
    (ls : List β) (h : (explicitBlocks enc b fs ls).2 = none) :
    (explicitBlocks enc b fs ls).1 =
      (ls.map fun l => ' ' :: '#' :: (write_megam_features (enc.encode fs l) b).1).flatten
    ∧ ∀ l ∈ ls, (write_megam_features (enc.encode fs l) b).2 = none := by
  induction ls with
  | nil => exact ⟨rfl, by simp⟩
  | cons l rest ih =>
    cases he : (write_megam_features (enc.encode fs l) b).2 with
    | some e =>
      rw [explicitBlocks, he] at h
      simp at h
    | none =>
      rw [explicitBlocks, he] at h
      simp at h
      obtain ⟨ho, hall⟩ := ih h
      constructor
      · rw [explicitBlocks, he]
        simp [ho]
      · intro l2 hl2
        rcases List.mem_cons.mp hl2 with hh | hh
        · rw [hh]
          exact he
        · exact hall l2 hh

theorem writeLine_ok {α β : Type} [DecidableEq β] (enc : MegamEncoding α β)
    (b e : Bool) (p : α × β) (h : (writeLine enc b e p).2 = none) :
    (writeLine enc b e p).1 =
      (firstPart enc p.1 p.2).1 ++ (writeBlocks enc b e p.1 p.2).1 ++ ['\n']
    ∧ (firstPart enc p.1 p.2).2 = none ∧ (writeBlocks enc b e p.1 p.2).2 = none := by
  cases h1 : (firstPart enc p.1 p.2).2 with
  | some err =>
    rw [writeLine, h1] at h
    simp at h
  | none =>
    cases h2 : (writeBlocks enc b e p.1 p.2).2 with
    | some err =>
      rw [writeLine, h1, h2] at h
      simp at h
    | none =>
      rw [writeLine, h1, h2]
      exact ⟨rfl, rfl, rfl⟩

theorem writeFileGo_ok {α β : Type} [DecidableEq β] (enc : MegamEncoding α β)
    (b e : Bool) (tt : List (α × β)) (h : (writeFileGo enc b e tt).2 = none) :
    (writeFileGo enc b e tt).1 = (tt.map fun p => (writeLine enc b e p).1).flatten
    ∧ ∀ p ∈ tt, (writeLine enc b e p).2 = none := by
  induction tt with
  | nil => exact ⟨rfl, by simp⟩
  | cons p rest ih =>
    cases hl : (writeLine enc b e p).2 with
    | some err =>
      rw [writeFileGo, hl] at h
      simp at h
    | none =>
      rw [writeFileGo, hl] at h
      simp at h
      obtain ⟨ho, hall⟩ := ih h
      constructor
      · rw [writeFileGo, hl]
        simp [ho]
      · intro p2 hp2
        rcases List.mem_cons.mp hp2 with hh | hh
        · rw [hh]
          exact hl
        · exact hall p2 hh

/-- Claim C5: an empty encoded feature vector raises the always-on
formatting error in both bernoulli and non-bernoulli mode, with nothing
streamed for that block; consequently a `write_megam_file` run can only
succeed when every feature block it attempts (all labels in explicit
mode, the true label otherwise) has a nonempty encoded vector. -/
theorem claim_C5 {α β : Type} [DecidableEq β] (b : Bool) (tt : List (α × β))
    (enc : MegamEncoding α β) (e : Bool) :
    write_megam_features ([] : List (Nat × Int)) b = ([], some WriteError.emptyVector)
    ∧ ((write_megam_file tt enc b e).2 = none → ∀ p ∈ tt,
        (e = true → ∀ l ∈ enc.labels, enc.encode p.1 l ≠ [])
        ∧ (e = false → enc.encode p.1 p.2 ≠ [])) := by
  constructor
  · rfl
  · intro h p hp
    have hline := (writeFileGo_ok enc b e tt h).2 p hp
    have hblocks := (writeLine_ok enc b e p hline).2.2
    constructor
    · intro he l hl
      rw [he] at hblocks
      rw [writeBlocks] at hblocks
      simp at hblocks
      exact wmf_ok_ne_nil _ _ ((explicitBlocks_ok enc b p.1 enc.labels hblocks).2 l hl)
    · intro he
      rw [he] at hblocks
      rw [writeBlocks] at hblocks
      simp at hblocks
      exact wmf_ok_ne_nil _ _ hblocks

/-- Witness for C5: a concrete successful run, from which the nonemptiness
of the concrete encoded vector follows. -/
theorem claim_C5_witness :
    write_megam_features ([] : List (Nat × Int)) true = ([], some WriteError.emptyVector)
    ∧ encAllBin.encode 0 10 ≠ [] := by
  refine ⟨(claim_C5 true [((0 : Nat), (10 : Nat))] encAllBin true).1, ?_⟩
  have h := (claim_C5 true [((0 : Nat), (10 : Nat))] encAllBin true).2 (by decide)
    ((0 : Nat), (10 : Nat)) (by simp)
  exact h.1 rfl 10 (by simp [encAllBin])

theorem digit_props (c : Char) (h : isDigitChar c = true) :
    isPyWs c = false ∧ c ≠ '#' ∧ c ≠ '\n' ∧ c ≠ '+' ∧ c ≠ '-' ∧ c ≠ ':' := by
  unfold isDigitChar digitVal? at h
  by_cases hb : '0' ≤ c ∧ c ≤ '9'
  · have hlt : ∀ d : Char, ¬ ('0' ≤ d ∧ d ≤ '9') → c ≠ d := fun d hd hh => hd (hh ▸ hb)
    refine ⟨?_, hlt '#' (by decide), hlt '\n' (by decide), hlt '+' (by decide),
      hlt '-' (by decide), hlt ':' (by decide)⟩
    rw [isPyWs]
    simp [hlt ' ' (by decide), hlt '\t' (by decide), hlt '\n' (by decide),
      hlt '\r' (by decide), hlt '\x0b' (by decide), hlt '\x0c' (by decide)]
  · rw [if_neg hb] at h
    simp at h

theorem digitChar_isDigit (m : Nat) (h : m < 10) : isDigitChar (Nat.digitChar m) = true := by
  interval_cases m <;> decide

theorem natDigitsRevAux_digits (f : Nat) :
    ∀ (n : Nat), ∀ c ∈ natDigitsRevAux f n, isDigitChar c = true := by
  induction f with
  | zero =>
    intro n c hc
    simp [natDigitsRevAux] at hc
  | succ f2 ih =>
    intro n c hc
    cases n with
    | zero => simp [natDigitsRevAux] at hc
    | succ m =>
      simp only [natDigitsRevAux] at hc
      rcases List.mem_cons.mp hc with hh | hh
      · rw [hh]
        exact digitChar_isDigit _ (Nat.mod_lt _ (by norm_num))
      · exact ih _ c hh

theorem pyStrOfNat_digits (n : Nat) : ∀ c ∈ pyStrOfNat n, isDigitChar c = true := by
  intro c hc
  unfold pyStrOfNat at hc
  by_cases h0 : n = 0
  · rw [if_pos h0] at hc
    simp at hc
    rw [hc]
    decide
  · rw [if_neg h0] at hc
    exact natDigitsRevAux_digits n n c (List.mem_reverse.mp hc)

theorem pyStrOfInt_chars (i : Int) : ∀ c ∈ pyStrOfInt i, isDigitChar c = true ∨ c = '-' := by
  intro c hc
  cases i with
  | ofNat n => exact Or.inl (pyStrOfNat_digits n c hc)
  | negSucc m =>
    rw [pyStrOfInt] at hc
    rcases List.mem_cons.mp hc with hh | hh
    · exact Or.inr hh
    · exact Or.inl (pyStrOfNat_digits (m + 1) c hh)

theorem featTokens_chars (b : Bool) (v : List (Nat × Int)) :
    ∀ c ∈ (featTokens b v).1, c = ' ' ∨ isDigitChar c = true ∨ c = '-' := by
  induction v with
  | nil =>
    intro c hc
    simp [featTokens] at hc
  | cons q r ih =>
    obtain ⟨fid, fval⟩ := q
    intro c hc
    by_cases hb : b
    · subst hb
      by_cases h1 : fval = 1
      · rw [featTokens, if_pos rfl, if_pos h1] at hc
        rcases List.mem_cons.mp hc with hh | hh
        · exact Or.inl hh
        · rcases List.mem_append.mp hh with hh2 | hh2
          · exact Or.inr (Or.inl (pyStrOfNat_digits fid c hh2))
          · exact ih c hh2
      · by_cases h0 : fval = 0
        · rw [featTokens, if_pos rfl, if_neg h1, if_pos h0] at hc
          exact ih c hc
        · rw [featTokens, if_pos rfl, if_neg h1, if_neg h0] at hc
          simp at hc
    · simp only [Bool.not_eq_true] at hb
      subst hb
      rw [featTokens] at hc
      simp only [Bool.false_eq_true, if_false] at hc
      rcases List.mem_cons.mp hc with hh | hh
      · exact Or.inl hh
      · rcases List.mem_append.mp hh with hh2 | hh2
        · rcases List.mem_append.mp hh2 with hh3 | hh3
          · exact Or.inr (Or.inl (pyStrOfNat_digits fid c hh3))
          · rcases List.mem_cons.mp hh3 with hh4 | hh4
            · exact Or.inl hh4
            · rcases pyStrOfInt_chars fval c hh4 with hd | hd
              · exact Or.inr (Or.inl hd)
              · exact Or.inr (Or.inr hd)
        · exact ih c hh2

theorem wmf_chars (b : Bool) (v : List (Nat × Int)) :
    ∀ c ∈ (write_megam_features v b).1, c = ' ' ∨ isDigitChar c = true ∨ c = '-' := by
  intro c hc
  unfold write_megam_features at hc
  by_cases hv : v.isEmpty
  · rw [if_pos hv] at hc
    simp at hc
  · rw [if_neg hv] at hc
    exact featTokens_chars b v c hc

/-- Claim C2: on a successful run, explicit mode writes for each training
pair one feature block per label of the encoding's label order, in that
order, each prefixed by the separator token `" #"`, while implicit mode
writes the single bare block of the pair's true label; every instance
line ends with a newline; and block text never contains `#` or a newline,
so the separators and terminators shown are exactly the ones written. -/
theorem claim_C2 {α β : Type} [DecidableEq β] (tt : List (α × β))
    (enc : MegamEncoding α β) (b : Bool) :
    ((write_megam_file tt enc b true).2 = none →
      (write_megam_file tt enc b true).1 =
        (tt.map fun p => (firstPart enc p.1 p.2).1 ++
          ((enc.labels.map fun l =>
            ' ' :: '#' :: (write_megam_features (enc.encode p.1 l) b).1).flatten) ++
          ['\n']).flatten)
    ∧ ((write_megam_file tt enc b false).2 = none →
      (write_megam_file tt enc b false).1 =
        (tt.map fun p => (firstPart enc p.1 p.2).1 ++
          (write_megam_features (enc.encode p.1 p.2) b).1 ++ ['\n']).flatten)
    ∧ (∀ (v : List (Nat × Int)) (b2 : Bool), ∀ c ∈ (write_megam_features v b2).1,
        c ≠ '#' ∧ c ≠ '\n') := by
  refine ⟨fun h => ?_, fun h => ?_, fun v b2 c hc => ?_⟩
  · obtain ⟨ho, hall⟩ := writeFileGo_ok enc b true tt h
    rw [write_megam_file, ho]
    congr 1
    apply List.map_congr_left
    intro p hp
    have hline := hall p hp
    obtain ⟨h1, _, h3⟩ := writeLine_ok enc b true p hline
    rw [h1]
    rw [writeBlocks, if_pos rfl] at h3 ⊢
    rw [(explicitBlocks_ok enc b p.1 enc.labels h3).1]
  · obtain ⟨ho, hall⟩ := writeFileGo_ok enc b false tt h
    rw [write_megam_file, ho]
    congr 1
    apply List.map_congr_left
    intro p hp
    have hline := hall p hp
    obtain ⟨h1, _, _⟩ := writeLine_ok enc b false p hline
    rw [h1]
    rw [writeBlocks]
    simp
  · rcases wmf_chars b2 v c hc with hh | hh | hh
    · rw [hh]
      exact ⟨by decide, by decide⟩
    · exact ⟨(digit_props c hh).2.1, (digit_props c hh).2.2.1⟩
    · rw [hh]
      exact ⟨by decide, by decide⟩

/-- Witness for C2 at a concrete encoding and training list, in both
explicit and implicit mode. -/
theorem claim_C2_witness :
    (write_megam_file [((0 : Nat), (10 : Nat))] encAllBin true true).1 =
      ([((0 : Nat), (10 : Nat))].map fun p => (firstPart encAllBin p.1 p.2).1 ++
        ((encAllBin.labels.map fun l =>
          ' ' :: '#' :: (write_megam_features (encAllBin.encode p.1 l) true).1).flatten) ++
        ['\n']).flatten
    ∧ (write_megam_file [((0 : Nat), (10 : Nat))] encAllBin true false).1 =
      ([((0 : Nat), (10 : Nat))].map fun p => (firstPart encAllBin p.1 p.2).1 ++
        (write_megam_features (encAllBin.encode p.1 p.2) true).1 ++ ['\n']).flatten :=
  ⟨(claim_C2 _ encAllBin true).1 (by decide), (claim_C2 _ encAllBin true).2.1 (by decide)⟩

theorem lastIndexOfAux_not_mem {β : Type} [DecidableEq β] (l : β) (ls : List β)
    (h : l ∉ ls) : ∀ k, lastIndexOfAux l ls k = none := by
  induction ls with
  | nil =>
    intro k
    rfl
  | cons x r ih =>
    intro k
    have hx : ¬ x = l := fun hh => h (by rw [hh]; exact List.mem_cons_self _ _)
    have hr : l ∉ r := fun hh => h (List.mem_cons_of_mem _ hh)
    rw [lastIndexOfAux, ih hr, if_neg hx]

theorem lastIndexOfAux_isSome_mem {β : Type} [DecidableEq β] (l : β) (ls : List β) :
    ∀ k j, lastIndexOfAux l ls k = some j → l ∈ ls := by
  induction ls with
  | nil =>
    intro k j h
    simp [lastIndexOfAux] at h
  | cons x r ih =>
    intro k j h
    rw [lastIndexOfAux] at h
    cases hr : lastIndexOfAux l r (k + 1) with
    | some j2 => exact List.mem_cons_of_mem _ (ih _ _ hr)
    | none =>
      rw [hr] at h
      by_cases hx : x = l
      · rw [hx]
        exact List.mem_cons_self _ _
      · rw [if_neg hx] at h
        exact absurd h (by simp)

theorem lastIndexOfAux_nodup {β : Type} [DecidableEq β] (l : β) (ls : List β)
    (hnd : ls.Nodup) (hm : l ∈ ls) :
    ∀ k, lastIndexOfAux l ls k = some (k + specIndexOf l ls) := by
  induction ls with
  | nil => exact absurd hm (by simp)
  | cons x r ih =>
    intro k
    have hx := (List.nodup_cons.mp hnd).1
    have hr := (List.nodup_cons.mp hnd).2
    rcases List.mem_cons.mp hm with hh | hh
    · have hlr : l ∉ r := by
        rw [hh]
        exact hx
      rw [lastIndexOfAux, lastIndexOfAux_not_mem l r hlr]
      simp [hh.symm, specIndexOf]
    · have hxl : ¬ x = l := fun h2 => hx (h2 ▸ hh)
      rw [lastIndexOfAux, ih hr hh]
      simp [specIndexOf, hxl]
      omega

theorem firstPart_cost {α β : Type} [DecidableEq β] (enc : MegamEncoding α β) (fs : α)
    (lbl : β) (c : α → β → β → Int) (hc : enc.cost = some c) :
    firstPart enc fs lbl =
      (List.intercalate [':'] (enc.labels.map fun l => pyStrOfInt (c fs lbl l)), none) := by
  unfold firstPart
  rw [hc]

theorem firstPart_index {α β : Type} [DecidableEq β] (enc : MegamEncoding α β) (fs : α)
    (lbl : β) (hc : enc.cost = none) (hnd : enc.labels.Nodup)
    (h2 : (firstPart enc fs lbl).2 = none) :
    (firstPart enc fs lbl).1 = pyStrOfNat (specIndexOf lbl enc.labels)
    ∧ lbl ∈ enc.labels := by
  unfold firstPart at h2 ⊢
  rw [hc] at h2 ⊢
  cases hl : labelnumLookup enc.labels lbl with
  | none =>
    rw [hl] at h2
    simp at h2
  | some i =>
    have hm : lbl ∈ enc.labels := lastIndexOfAux_isSome_mem lbl enc.labels 0 i hl
    have hnl := lastIndexOfAux_nodup lbl enc.labels hnd hm 0
    rw [labelnumLookup, hnl] at hl
    have hi : i = specIndexOf lbl enc.labels := by
      have h3 := Option.some_inj.mp hl
      omega
    constructor
    · simp [hi]
    · exact hm

/-- Claim C4: on a successful run the first thing written on each
instance line is selected solely by the cost capability: the colon-joined
costs of every label in encoding order (cost mode, a `some` cost field)
or the decimal index of the pair's true label in the label order (index
mode, a `none` cost field); the two modes are mutually exclusive because
they are the two branches of the same option. -/
theorem claim_C4 {α β : Type} [DecidableEq β] (tt : List (α × β))
    (enc : MegamEncoding α β) (b e : Bool) (hnd : enc.labels.Nodup) :
    (∀ c2, enc.cost = some c2 → (write_megam_file tt enc b e).2 = none →
      (write_megam_file tt enc b e).1 =
        (tt.map fun p =>
          List.intercalate [':'] (enc.labels.map fun l => pyStrOfInt (c2 p.1 p.2 l)) ++
          (writeBlocks enc b e p.1 p.2).1 ++ ['\n']).flatten)
    ∧ (enc.cost = none → (write_megam_file tt enc b e).2 = none →
      (write_megam_file tt enc b e).1 =
        (tt.map fun p => pyStrOfNat (specIndexOf p.2 enc.labels) ++
          (writeBlocks enc b e p.1 p.2).1 ++ ['\n']).flatten) := by
  constructor
  · intro c2 hc h
    obtain ⟨ho, hall⟩ := writeFileGo_ok enc b e tt h
    rw [write_megam_file, ho]
    congr 1
    apply List.map_congr_left
    intro p hp
    obtain ⟨h1, _, _⟩ := writeLine_ok enc b e p (hall p hp)
    rw [h1, firstPart_cost enc p.1 p.2 c2 hc]
  · intro hc h
    obtain ⟨ho, hall⟩ := writeFileGo_ok enc b e tt h
    rw [write_megam_file, ho]
    congr 1
    apply List.map_congr_left
    intro p hp
    obtain ⟨h1, h2, _⟩ := writeLine_ok enc b e p (hall p hp)
    rw [h1, (firstPart_index enc p.1 p.2 hc hnd h2).1]

/-- Witness for C4: one concrete run in cost mode and one in index
mode. -/
theorem claim_C4_witness :
    (write_megam_file [((5 : Nat), (20 : Nat))] encCost true true).1 =
      ([((5 : Nat), (20 : Nat))].map fun p =>
        List.intercalate [':'] (encCost.labels.map fun l =>
          pyStrOfInt (if p.2 = l then 0 else 2)) ++
        (writeBlocks encCost true true p.1 p.2).1 ++ ['\n']).flatten
    ∧ (write_megam_file [((0 : Nat), (10 : Nat))] encAllBin true true).1 =
      ([((0 : Nat), (10 : Nat))].map fun p => pyStrOfNat (specIndexOf p.2 encAllBin.labels) ++
        (writeBlocks encAllBin true true p.1 p.2).1 ++ ['\n']).flatten :=
  ⟨(claim_C4 _ encCost true true (by decide)).1 (fun _ lbl l => if lbl = l then 0 else 2)
      rfl (by decide),
    (claim_C4 _ encAllBin true true (by decide)).2 rfl (by decide)⟩

theorem dropWhile_all_false (p : Char → Bool) (l : List Char)
    (h : ∀ c ∈ l, p c = false) : l.dropWhile p = l := by
  cases l with
  | nil => rfl
  | cons c r =>
    rw [List.dropWhile_cons, h c (by simp)]
    simp

theorem strip_of_no_ws (l : List Char) (h : ∀ c ∈ l, isPyWs c = false) : pyStrip l = l := by
  unfold pyStrip
  rw [dropWhile_all_false isPyWs l h]
  rw [dropWhile_all_false isPyWs l.reverse (fun c hc => h c (List.mem_reverse.mp hc))]
  exact List.reverse_reverse l

theorem digitsValAux_append (l1 l2 : List Char) :
    ∀ acc, digitsValAux acc (l1 ++ l2) =
      match digitsValAux acc l1 with
      | some a2 => digitsValAux a2 l2
      | none => none := by
  induction l1 with
  | nil =>
    intro acc
    simp [digitsValAux]
  | cons c r ih =>
    intro acc
    rw [List.cons_append, digitsValAux, digitsValAux]
    cases digitVal? c with
    | some d => exact ih _
    | none => rfl

theorem digitVal_digitChar (m : Nat) (h : m < 10) : digitVal? (Nat.digitChar m) = some m := by
  interval_cases m <;> decide

theorem natDigitsRevAux_val :
    ∀ (n f acc : Nat), n ≤ f →
      digitsValAux acc ((natDigitsRevAux f n).reverse) =
        some (acc * 10 ^ (natDigitsRevAux f n).length + n) := by
  intro n
  induction n using Nat.strong_induction_on with
  | _ n ih =>
    intro f acc hnf
    cases n with
    | zero =>
      cases f <;> simp [natDigitsRevAux, digitsValAux]
    | succ m =>
      cases f with
      | zero => omega
      | succ f2 =>
        have hlt : (m + 1) / 10 < m + 1 := Nat.div_lt_self (Nat.succ_pos m) (by norm_num)
        have hle : (m + 1) / 10 ≤ f2 := by omega
        have hdm : 10 * ((m + 1) / 10) + (m + 1) % 10 = m + 1 := Nat.div_add_mod (m + 1) 10
        have haux : natDigitsRevAux (f2 + 1) (m + 1) =
            Nat.digitChar ((m + 1) % 10) :: natDigitsRevAux f2 ((m + 1) / 10) := by
          simp [natDigitsRevAux]
        rw [haux, List.reverse_cons, digitsValAux_append, ih _ hlt f2 acc hle]
        simp only [digitsValAux, digitVal_digitChar _ (Nat.mod_lt _ (by norm_num))]
        rw [List.length_cons, pow_succ]
        congr 1
        have hx : 10 * (acc * 10 ^ (natDigitsRevAux f2 ((m + 1) / 10)).length) =
            acc * (10 ^ (natDigitsRevAux f2 ((m + 1) / 10)).length * 10) := by ring
        omega

theorem pyStrOfNat_ne_nil (n : Nat) : pyStrOfNat n ≠ [] := by
  unfold pyStrOfNat
  by_cases h0 : n = 0
  · simp [h0]
  · rw [if_neg h0]
    cases n with
    | zero => exact absurd rfl h0
    | succ m => simp [natDigitsRevAux]

theorem digitsVal_pyStrOfNat (n : Nat) : digitsVal? (pyStrOfNat n) = some n := by
  by_cases h0 : n = 0
  · rw [h0]
    decide
  · rw [digitsVal?, if_neg (by simpa using pyStrOfNat_ne_nil n)]
    unfold pyStrOfNat
    rw [if_neg h0]
    rw [natDigitsRevAux_val n n 0 (le_refl n)]
    simp

theorem pyInt_pyStrOfNat (n : Nat) : pyInt? (pyStrOfNat n) = some (Int.ofNat n) := by
  have hdig := pyStrOfNat_digits n
  have hstrip : pyStrip (pyStrOfNat n) = pyStrOfNat n :=
    strip_of_no_ws _ (fun c hc => (digit_props c (hdig c hc)).1)
  cases hps : pyStrOfNat n with
  | nil => exact absurd hps (pyStrOfNat_ne_nil n)
  | cons c r =>
    have hc : isDigitChar c = true := hdig c (by rw [hps]; exact List.mem_cons_self _ _)
    have hplus : ¬ c = '+' := (digit_props c hc).2.2.2.1
    have hminus : ¬ c = '-' := (digit_props c hc).2.2.2.2.1
    rw [hps] at hstrip
    rw [pyInt?, hstrip]
    simp only [if_neg hplus, if_neg hminus]
    rw [← hps, digitsVal_pyStrOfNat n]
    rfl

theorem pySplitWsAux_token (tok : List Char) (hnw : ∀ c ∈ tok, isPyWs c = false) :
    ∀ (r acc : List Char), pySplitWsAux (tok ++ r) acc = pySplitWsAux r (tok.reverse ++ acc) := by
  induction tok with
  | nil =>
    intro r acc
    simp
  | cons c t ih =>
    intro r acc
    rw [List.cons_append, pySplitWsAux, hnw c (by simp)]
    simp only [Bool.false_eq_true, if_false]
    rw [ih (fun c2 hc2 => hnw c2 (by simp [hc2])) r (c :: acc)]
    simp

theorem pySplitWs_head (tok : List Char) (c0 : Char) (r : List Char)
    (hne : tok ≠ []) (hnw : ∀ c ∈ tok, isPyWs c = false) (hc0 : isPyWs c0 = true) :
    (pySplitWs (tok ++ c0 :: r)).head? = some tok := by
  rw [pySplitWs, pySplitWsAux_token tok hnw (c0 :: r) [], List.append_nil,
    pySplitWsAux, hc0]
  simp only [if_true]
  rw [if_neg (by simpa using hne)]
  simp

theorem featTokens_head (b : Bool) (v : List (Nat × Int)) :
    (featTokens b v).1 = [] ∨ ∃ t, (featTokens b v).1 = ' ' :: t := by
  induction v with
  | nil => exact Or.inl rfl
  | cons q r ih =>
    obtain ⟨fid, fval⟩ := q
    by_cases hb : b
    · subst hb
      by_cases h1 : fval = 1
      · rw [featTokens, if_pos rfl, if_pos h1]
        exact Or.inr ⟨_, rfl⟩
      · by_cases h0 : fval = 0
        · rw [featTokens, if_pos rfl, if_neg h1, if_pos h0]
          exact ih
        · rw [featTokens, if_pos rfl, if_neg h1, if_neg h0]
          exact Or.inl rfl
    · simp only [Bool.not_eq_true] at hb
      subst hb
      rw [featTokens]
      simp only [Bool.false_eq_true, if_false]
      exact Or.inr ⟨_, rfl⟩

theorem writeBlocks_head {α β : Type} (enc : MegamEncoding α β) (b e : Bool)
    (fs : α) (lbl : β) :
    (writeBlocks enc b e fs lbl).1 = [] ∨ ∃ t, (writeBlocks enc b e fs lbl).1 = ' ' :: t := by
  unfold writeBlocks
  by_cases he : e
  · rw [if_pos he]
    cases hls : enc.labels with
    | nil => exact Or.inl rfl
    | cons l rest =>
      rw [explicitBlocks]
      cases (write_megam_features (enc.encode fs l) b).2 with
      | some err => exact Or.inr ⟨_, rfl⟩
      | none => exact Or.inr ⟨_, rfl⟩
  · rw [if_neg he]
    unfold write_megam_features
    by_cases hv : (enc.encode fs lbl).isEmpty
    · rw [if_pos hv]
      exact Or.inl rfl
    · rw [if_neg hv]
      exact featTokens_head b (enc.encode fs lbl)

theorem specIndexOf_getElem {β : Type} [DecidableEq β] (l : β) (ls : List β) (hm : l ∈ ls) :
    ls.get? (specIndexOf l ls) = some l := by
  induction ls with
  | nil => exact absurd hm (by simp)
  | cons x r ih =>
    by_cases hx : x = l
    · simp only [specIndexOf, if_pos hx]
      simp [hx]
    · simp only [specIndexOf, if_neg hx]
      have hr : l ∈ r := by
        rcases List.mem_cons.mp hm with hh | hh
        · exact absurd hh.symm hx
        · exact hh
      simpa using ih hr

/-- Claim C9: for a cost-free encoding with duplicate-free labels, on a
successful run, the first whitespace-delimited token of the line written
for a training pair is the decimal string of the position of the pair's
true label in the encoding's label order, reading that token back with
`int()` recovers the position, and the label order at that position is
the true label itself. -/
theorem claim_C9 {α β : Type} [DecidableEq β] (tt : List (α × β)) (enc : MegamEncoding α β)
    (b e : Bool) (p : α × β) (hc : enc.cost = none) (hnd : enc.labels.Nodup) (hp : p ∈ tt)
    (hs : (write_megam_file tt enc b e).2 = none) :
    (pySplitWs ((writeLine enc b e p).1)).head? =
      some (pyStrOfNat (specIndexOf p.2 enc.labels))
    ∧ pyInt? (pyStrOfNat (specIndexOf p.2 enc.labels)) =
      some (Int.ofNat (specIndexOf p.2 enc.labels))
    ∧ enc.labels.get? (specIndexOf p.2 enc.labels) = some p.2 := by
  have hline := (writeFileGo_ok enc b e tt hs).2 p hp
  obtain ⟨h1, h2, _⟩ := writeLine_ok enc b e p hline
  obtain ⟨hfp, hm⟩ := firstPart_index enc p.1 p.2 hc hnd h2
  have hdig := pyStrOfNat_digits (specIndexOf p.2 enc.labels)
  have hnw : ∀ c ∈ pyStrOfNat (specIndexOf p.2 enc.labels), isPyWs c = false :=
    fun c hcm => (digit_props c (hdig c hcm)).1
  have hne := pyStrOfNat_ne_nil (specIndexOf p.2 enc.labels)
  refine ⟨?_, pyInt_pyStrOfNat _, specIndexOf_getElem p.2 enc.labels hm⟩
  rw [h1, hfp]
  rcases writeBlocks_head enc b e p.1 p.2 with hb | ⟨t, hb⟩
  · rw [hb]
    simp only [List.append_nil, List.append_assoc, List.singleton_append]
    exact pySplitWs_head _ '\n' [] hne hnw (by decide)
  · rw [hb]
    rw [List.append_assoc]
    simp only [List.cons_append]
    exact pySplitWs_head _ ' ' (t ++ ['\n']) hne hnw (by decide)

/-- Witness for C9 at a concrete cost-free encoding, training list and
pair. -/
theorem claim_C9_witness :
    (pySplitWs ((writeLine encAllBin true true ((1 : Nat), (20 : Nat))).1)).head? =
      some (pyStrOfNat (specIndexOf 20 encAllBin.labels))
    ∧ pyInt? (pyStrOfNat (specIndexOf 20 encAllBin.labels)) =
      some (Int.ofNat (specIndexOf 20 encAllBin.labels))
    ∧ encAllBin.labels.get? (specIndexOf 20 encAllBin.labels) = some 20 :=
  claim_C9 [((0 : Nat), (10 : Nat)), ((1 : Nat), (20 : Nat))] encAllBin true true
    ((1 : Nat), (20 : Nat)) rfl (by decide) (by simp) (by decide)

theorem allws_splitWsAux_nil (l : List Char) (h : ∀ c ∈ l, isPyWs c = true) :
    pySplitWsAux l [] = [] := by
  induction l with
  | nil => rfl
  | cons c r ih =>
    rw [pySplitWsAux, h c (by simp)]
    simp only [if_true, List.isEmpty_nil]
    exact ih (fun c2 hc2 => h c2 (by simp [hc2]))

theorem blank_all_ws (l : List Char) (h : (pyStrip l).isEmpty = true) :
    ∀ c ∈ l, isPyWs c = true := by
  have h2 : ((l.dropWhile isPyWs).reverse.dropWhile isPyWs).reverse = [] :=
    List.isEmpty_iff.mp h
  have h3 : (l.dropWhile isPyWs).reverse.dropWhile isPyWs = [] :=
    List.reverse_eq_nil_iff.mp h2
  have h5 : ∀ c ∈ l.dropWhile isPyWs, isPyWs c = true := fun c hc =>
    (List.dropWhile_eq_nil_iff.mp h3) c (List.mem_reverse.mpr hc)
  intro c hc
  rw [← List.takeWhile_append_dropWhile isPyWs l] at hc
  rcases List.mem_append.mp hc with hh | hh
  · exact List.mem_takeWhile_imp hh
  · exact h5 c hh

theorem blank_splitWs (l : List Char) (h : (pyStrip l).isEmpty = true) :
    pySplitWs l = [] :=
  allws_splitWsAux_nil l (blank_all_ws l h)

theorem blank_lineAssign (l : List Char) (h : (pyStrip l).isEmpty = true) :
    lineAssign? l = none := by
  rw [lineAssign?, blank_splitWs l h]

theorem parseLines_strict (lines : List (List Char)) :
    ∀ (w : List Rat), (∀ line ∈ lines, strictLine w.length line = true) →
      ∃ w2, parseLines w lines = .ok w2 ∧ w2.length = w.length ∧
        ∀ j, j < w.length →
          w2.getD j 0 = (((lines.filterMap lineAssign?).reverse.find?
            (fun q => q.1 = (j : Int))).map (fun q => q.2)).getD (w.getD j 0) := by
  induction lines with
  | nil =>
    intro w hstrict
    exact ⟨w, rfl, rfl, by simp⟩
  | cons line rest ih =>
    intro w hstrict
    have hline := hstrict line (by simp)
    by_cases hb : (pyStrip line).isEmpty
    · have hpl : parseLine w line = .ok w := by rw [parseLine, if_pos hb]
      obtain ⟨w2, hw2, hlen, hget⟩ := ih w (fun l2 hl2 => hstrict l2 (by simp [hl2]))
      refine ⟨w2, ?_, hlen, ?_⟩
      · rw [parseLines, hpl]
        exact hw2
      · intro j hj
        simp only [List.filterMap_cons, blank_lineAssign line hb]
        exact hget j hj
    · rw [Bool.not_eq_true] at hb
      rw [strictLine, hb] at hline
      simp only [Bool.false_or] at hline
      cases hsp : pySplitWs line with
      | nil =>
        rw [hsp] at hline
        simp at hline
      | cons a t =>
        cases t with
        | nil =>
          rw [hsp] at hline
          simp at hline
        | cons b2 t2 =>
          cases t2 with
          | cons x t3 =>
            rw [hsp] at hline
            simp at hline
          | nil =>
            rw [hsp] at hline
            cases hia : pyInt? a with
            | none => simp [hia] at hline
            | some i =>
              cases hfb : pyFloat? b2 with
              | none => simp [hia, hfb] at hline
              | some v =>
                simp only [hia, hfb, decide_eq_true_eq] at hline
                have hpl : parseLine w line = .ok (w.set i.toNat v) := by
                  rw [parseLine, if_neg (by simp [hb]), hsp]
                  simp only [hfb, hia]
                  rw [npSet, if_pos ⟨hline.1, hline.2⟩]
                have hla : lineAssign? line = some (i, v) := by
                  rw [lineAssign?, hsp]
                  simp only [hia, hfb]
                obtain ⟨w2, hw2, hlen, hget⟩ := ih (w.set i.toNat v) (by
                  intro l2 hl2
                  rw [List.length_set]
                  exact hstrict l2 (by simp [hl2]))
                refine ⟨w2, ?_, by rw [hlen, List.length_set], ?_⟩
                · rw [parseLines, hpl]
                  exact hw2
                · intro j hj
                  have hj2 : j < (w.set i.toNat v).length := by
                    rw [List.length_set]
                    exact hj
                  have hmain := hget j hj2
                  simp only [List.filterMap_cons, hla, List.reverse_cons,
                    List.find?_append]
                  cases hfind : (List.filterMap lineAssign? rest).reverse.find?
                      (fun q => q.1 = (j : Int)) with
                  | some q =>
                    rw [hfind] at hmain
                    rw [Option.or_some]
                    simpa using hmain
                  | none =>
                    rw [hfind] at hmain
                    rw [Option.none_or]
                    simp at hmain
                    by_cases hij : i = (j : Int)
                    · have htn : i.toNat = j := by omega
                      have hjv : (w.set i.toNat v).getD j 0 = v := by
                        rw [List.getD_eq_getElem?_getD, htn,
                          List.getElem?_set_self (by omega), Option.getD_some]
                      rw [List.find?_cons]
                      have hpq : (fun q : Int × Rat => decide (q.1 = (j : Int))) (i, v) = true := by
                        simp [hij]
                      simp only [hpq]
                      have hw2v : w2.getD j 0 = v := by
                        rw [List.getD_eq_getElem?_getD, hmain, ← List.getD_eq_getElem?_getD,
                          hjv]
                      rw [hw2v]
                      simp
                    · have htn : i.toNat ≠ j := by omega
                      have hjv : (w.set i.toNat v).getD j 0 = w.getD j 0 := by
                        rw [List.getD_eq_getElem?_getD, List.getD_eq_getElem?_getD,
                          List.getElem?_set_ne htn]
                      rw [List.find?_cons]
                      have hpq : (fun q : Int × Rat => decide (q.1 = (j : Int))) (i, v) = false := by
                        simp [hij]
                      simp only [hpq]
                      have hw2v : w2.getD j 0 = w.getD j 0 := by
                        rw [List.getD_eq_getElem?_getD, hmain, ← List.getD_eq_getElem?_getD,
                          hjv]
                      rw [hw2v]
                      simp

/-- Claim C1: on stdout text made only of blank lines and well-formed
two-token lines with an in-range nonnegative feature id, `parse` returns
a vector of the requested length in which each named index holds the last
weight given for it and every other position is zero; in particular the
two concrete examples of the spec. -/
theorem claim_C1 :
    (∀ (s : List Char) (count : Nat),
      (∀ line ∈ splitNl (pyStrip s), strictLine count line = true) →
      ∃ w, parse_megam_weights s count true = .ok w ∧ w.length = count ∧
        ∀ j, j < count → w.getD j 0 = (lastAssign s j).getD 0)
    ∧ parse_megam_weights ("3 0.5".toList) 5 true = .ok [0, 0, 0, mkRat 1 2, 0]
    ∧ parse_megam_weights ("".toList) 5 true = .ok (List.replicate 5 0) := by
  refine ⟨fun s count hgood => ?_, by decide, by decide⟩
  have hlen : (List.replicate count (0 : Rat)).length = count := List.length_replicate _ _
  obtain ⟨w2, hw2, hl2, hget⟩ := parseLines_strict (splitNl (pyStrip s))
    (List.replicate count 0) (by rw [hlen]; exact hgood)
  refine ⟨w2, ?_, by rw [hl2, hlen], ?_⟩
  · rw [parse_megam_weights, if_pos rfl]
    exact hw2
  · intro j hj
    have hmain := hget j (by rw [hlen]; exact hj)
    have hrep : (List.replicate count (0 : Rat)).getD j 0 = 0 := by
      rw [List.getD_eq_getElem?_getD, List.getElem?_replicate, if_pos hj]
      rfl
    rw [hmain, hrep, lastAssign, namedAssigns]

/-- Witness for C1 at a concrete well-formed input. -/
theorem claim_C1_witness :
    ∃ w, parse_megam_weights ("1 2.5\n\n0 7".toList) 3 true = .ok w ∧ w.length = 3 ∧
      ∀ j, j < 3 → w.getD j 0 = (lastAssign ("1 2.5\n\n0 7".toList) j).getD 0 :=
  claim_C1.1 ("1 2.5\n\n0 7".toList) 3 (by decide)

theorem parseLine_bad (w : List Rat) (line : List Char)
    (h : goodLine w.length line = false) : ∃ e, parseLine w line = .error e := by
  have hnb : (pyStrip line).isEmpty = false := by
    cases hsb : (pyStrip line).isEmpty with
    | true =>
      rw [goodLine, hsb] at h
      simp at h
    | false => rfl
  rw [goodLine, hnb] at h
  simp only [Bool.false_or] at h
  rw [parseLine, if_neg (by simp [hnb])]
  cases hsp : pySplitWs line with
  | nil => exact ⟨PError.unpackError, rfl⟩
  | cons a t =>
    cases t with
    | nil => exact ⟨PError.unpackError, rfl⟩
    | cons b2 t2 =>
      cases t2 with
      | cons x t3 => exact ⟨PError.unpackError, rfl⟩
      | nil =>
        rw [hsp] at h
        cases hfb : pyFloat? b2 with
        | none =>
          simp only [hfb]
          exact ⟨PError.valueError, rfl⟩
        | some v =>
          cases hia : pyInt? a with
          | none =>
            simp only [hfb, hia]
            exact ⟨PError.valueError, rfl⟩
          | some i =>
            simp only [hfb, hia]
            simp only [hia, hfb, decide_eq_false_iff_not] at h
            have hnp : npSet w i v = none := by
              rw [npSet, if_neg (by omega), if_neg (by omega)]
            rw [hnp]
            exact ⟨PError.indexError, rfl⟩

theorem parseLine_good (w : List Rat) (line : List Char)
    (h : goodLine w.length line = true) :
    ∃ w2, parseLine w line = .ok w2 ∧ w2.length = w.length := by
  by_cases hb : (pyStrip line).isEmpty
  · exact ⟨w, by rw [parseLine, if_pos hb], rfl⟩
  · rw [Bool.not_eq_true] at hb
    rw [goodLine, hb] at h
    simp only [Bool.false_or] at h
    cases hsp : pySplitWs line with
    | nil =>
      rw [hsp] at h
      simp at h
    | cons a t =>
      cases t with
      | nil =>
        rw [hsp] at h
        simp at h
      | cons b2 t2 =>
        cases t2 with
        | cons x t3 =>
          rw [hsp] at h
          simp at h
        | nil =>
          rw [hsp] at h
          cases hia : pyInt? a with
          | none => simp [hia] at h
          | some i =>
            cases hfb : pyFloat? b2 with
            | none => simp [hia, hfb] at h
            | some v =>
              simp only [hia, hfb, decide_eq_true_eq] at h
              by_cases hpos : 0 ≤ i
              · refine ⟨w.set i.toNat v, ?_, List.length_set w _ _⟩
                rw [parseLine, if_neg (by simp [hb]), hsp]
                simp only [hfb, hia]
                rw [npSet, if_pos ⟨hpos, h.2⟩]
              · refine ⟨w.set (i + (w.length : Int)).toNat v, ?_, List.length_set w _ _⟩
                rw [parseLine, if_neg (by simp [hb]), hsp]
                simp only [hfb, hia]
                rw [npSet, if_neg (by omega), if_pos ⟨h.1, by omega⟩]

theorem parseLines_bad (lines : List (List Char)) :
    ∀ (w : List Rat), (∃ line ∈ lines, goodLine w.length line = false) →
      ∃ e, parseLines w lines = .error e := by
  induction lines with
  | nil =>
    intro w hbad
    simp at hbad
  | cons line rest ih =>
    intro w hbad
    cases hgood : goodLine w.length line with
    | false =>
      obtain ⟨e, he⟩ := parseLine_bad w line hgood
      exact ⟨e, by rw [parseLines, he]⟩
    | true =>
      obtain ⟨w2, hw2, hlen⟩ := parseLine_good w line hgood
      have hrest : ∃ l2 ∈ rest, goodLine w2.length l2 = false := by
        rcases hbad with ⟨l2, hl2, hbad2⟩
        rcases List.mem_cons.mp hl2 with hh | hh
        · rw [hh, hgood] at hbad2
          exact absurd hbad2 (by simp)
        · exact ⟨l2, hh, by rw [hlen]; exact hbad2⟩
      obtain ⟨e, he⟩ := ih w2 hrest
      exact ⟨e, by rw [parseLines, hw2]; exact he⟩

/-- Counterexample to C6 as stated: the line `-1 0.5` has a negative
feature id, yet `parse` does not fail — numpy indexing wraps the index
`-1` to position `featureCount - 1` and returns a filled vector. -/
theorem claim_C6_counterexample :
    parse_megam_weights ("-1 0.5".toList) 5 true = .ok [0, 0, 0, 0, mkRat 1 2] := by
  decide

/-- Claim C6 (amended): `parse` fails on every input containing a
non-blank line whose token count is not two, whose fields do not parse as
numbers, or whose integer id is outside `[-featureCount, featureCount)`
(numpy indexing accepts negative ids down to `-featureCount`, wrapping
them to `featureCount + id`); on failure only the error escapes, so no
partially filled vector is returned. -/
theorem claim_C6 (s : List Char) (count : Nat)
    (h : ∃ line ∈ splitNl (pyStrip s), goodLine count line = false) :
    ∃ e, parse_megam_weights s count true = .error e := by
  rw [parse_megam_weights, if_pos rfl]
  exact parseLines_bad (splitNl (pyStrip s)) (List.replicate count 0)
    (by rw [List.length_replicate]; exact h)

/-- Witness for C6 (amended) at a concrete out-of-range input. -/
theorem claim_C6_witness :
    ∃ e, parse_megam_weights ("9 1.0".toList) 3 true = .error e :=
  claim_C6 ("9 1.0".toList) 3 (by decide)

end Megam
